import Mathlib

/-!
Verification of `simpchache.ByteView`.

A shallow embedding of `src/simpchache/byteview.go`.

Go slices are references into backing arrays, and most of the properties of
`ByteView` are about which storage an operation may touch.  The embedding
therefore makes the store explicit: a `Heap` is the list of backing arrays
allocated so far, a `Slice` is a Go slice header (array address, offset,
length, capacity), and every operation takes the heap and returns either a
`Panic` or its result together with the heap it leaves behind.  Loads and
stores are bounds-checked, so an access outside an allocated array shows up
as an error result instead of being silently ignored.
-/

namespace simpchache

/-! ## Store model -/

/-- A Go `byte`. -/
abbrev Byte := Fin 256

/-- Run-time failures of the modelled operations. -/
inductive Panic where
  | invalidAddress
  | outOfBounds
  | nilDereference
  | indexOutOfRange
  | makeLenOutOfRange
deriving DecidableEq

/-- The store: backing arrays in allocation order; the address of an array is
its position in the list. -/
abbrev Heap := List (List Byte)

/-- A data pointer: the nil pointer, the address the Go runtime hands out for
every allocation of size zero (its `zerobase`, shared by all of them), or the
address of a backing array in the heap. -/
inductive Ptr where
  | null
  | zerobase
  | array (a : Nat)
deriving DecidableEq

/-- A Go slice header.  The nil slice has `ptr = .null`, `len = 0`, `cap = 0`;
a slice with `ptr = .array a` covers the cells `off .. off + len - 1` of array
`a`, and may grow up to `off + cap`; a slice at `.zerobase` has no cells. -/
structure Slice where
  ptr : Ptr
  off : Nat
  len : Nat
  cap : Nat
deriving DecidableEq

/-- The nil slice, zero value of `[]byte`. -/
def Slice.nil : Slice := ⟨.null, 0, 0, 0⟩

/-- Validity of a slice header in a heap: `len ≤ cap`, and the capacity window
lies inside an allocated array (the nil pointer and the zero-size address
carry no capacity).  Every slice value a Go program can hold satisfies this. -/
def Slice.wf (h : Heap) (s : Slice) : Bool :=
  decide (s.len ≤ s.cap) &&
    match s.ptr with
    | .null => decide (s.cap = 0)
    | .zerobase => decide (s.cap = 0)
    | .array a =>
      match h[a]? with
      | none => false
      | some arr => decide (s.off + s.cap ≤ arr.length)

/-- The byte sequence a slice denotes in a heap. -/
def Slice.contents (h : Heap) (s : Slice) : List Byte :=
  match s.ptr with
  | .array a => ((h.getD a []).drop s.off).take s.len
  | _ => []

/-- Checked load of cell `i` of array `a`. -/
def Heap.load (h : Heap) (a i : Nat) : Except Panic Byte :=
  match h[a]? with
  | none => .error .invalidAddress
  | some arr =>
    match arr[i]? with
    | none => .error .outOfBounds
    | some x => .ok x

/-- Checked store into cell `i` of array `a`. -/
def Heap.store (h : Heap) (a i : Nat) (x : Byte) : Except Panic Heap :=
  match h[a]? with
  | none => .error .invalidAddress
  | some arr =>
    if i < arr.length then .ok (h.set a (arr.set i x)) else .error .outOfBounds

/-- Load `n` consecutive cells of array `a` starting at cell `i`. -/
def Heap.loadN (h : Heap) (a : Nat) : Nat → Nat → Except Panic (List Byte)
  | _, 0 => .ok []
  | i, n + 1 =>
    match h.load a i with
    | .error e => .error e
    | .ok x =>
      match Heap.loadN h a (i + 1) n with
      | .error e => .error e
      | .ok xs => .ok (x :: xs)

/-- Store the bytes `xs` into consecutive cells of array `a` starting at `i`. -/
def Heap.storeN (h : Heap) (a : Nat) : Nat → List Byte → Except Panic Heap
  | _, [] => .ok h
  | i, x :: xs =>
    match h.store a i x with
    | .error e => .error e
    | .ok h1 => Heap.storeN h1 a (i + 1) xs

/-! ## Go built-ins used by the source -/

/-- Go `len(s)`, of type `int`. -/
def len (s : Slice) : Int := (s.len : Int)

/-- Go `make([]byte, n)`.  For `n > 0` it allocates a new zeroed array of `n`
bytes and returns the slice covering it.  For `n = 0` nothing is allocated:
the runtime returns the shared zero-size address, so the result is a non-nil
slice without cells and the heap is unchanged.  A negative length panics. -/
def make (n : Int) (h : Heap) : Except Panic (Slice × Heap) :=
  if n < 0 then .error .makeLenOutOfRange
  else if n = 0 then .ok (⟨.zerobase, 0, 0, 0⟩, h)
  else .ok (⟨.array h.length, 0, n.toNat, n.toNat⟩, h ++ [List.replicate n.toNat 0])

/-- Go `copy(dst, src)`: copies `min(len(dst), len(src))` bytes from the start
of `src` to the start of `dst` and returns that number.  Nothing is accessed
when the number is zero; otherwise the source is read in full before the
destination is written (overlapping slices are handled as by `memmove`). -/
def copy (dst src : Slice) (h : Heap) : Except Panic (Int × Heap) :=
  let n := min dst.len src.len
  if n = 0 then .ok (0, h)
  else
    match dst.ptr, src.ptr with
    | .array d, .array s =>
      match h.loadN s src.off n with
      | .error e => .error e
      | .ok data =>
        match h.storeN d dst.off data with
        | .error e => .error e
        | .ok h1 => .ok ((n : Int), h1)
    | _, _ => .error .nilDereference

/-- A Go `string`: an immutable sequence of bytes (not necessarily valid
UTF-8).  Strings are values; their storage is not reachable through slices. -/
structure GoString where
  bytes : List Byte
deriving DecidableEq

/-- The Go string holding the UTF-8 encoding of a text, as a string literal
does. -/
def GoString.ofText (t : String) : GoString :=
  ⟨(t.data.flatMap String.utf8EncodeChar).map (fun b => Fin.ofNat b.toNat)⟩

/-- Go conversion `string(b)` of a byte slice: a new string with the bytes of
`b`; the empty string when `len(b) = 0`, without touching memory. -/
def stringOfBytes (b : Slice) (h : Heap) : Except Panic (GoString × Heap) :=
  if b.len = 0 then .ok (⟨[]⟩, h)
  else
    match b.ptr with
    | .array a =>
      match h.loadN a b.off b.len with
      | .error e => .error e
      | .ok data => .ok (⟨data⟩, h)
    | _ => .error .nilDereference

/-- Go assignment `s[i] = x`. -/
def Slice.setIndex (s : Slice) (i : Nat) (x : Byte) (h : Heap) : Except Panic Heap :=
  if i < s.len then
    match s.ptr with
    | .array a => h.store a (s.off + i) x
    | _ => .error .nilDereference
  else .error .indexOutOfRange

/-- A sequence of assignments `s[i] = x`, in order. -/
def Slice.mutate (s : Slice) : List (Nat × Byte) → Heap → Except Panic Heap
  | [], h => .ok h
  | (i, x) :: ws, h =>
    match s.setIndex i x h with
    | .error e => .error e
    | .ok h1 => Slice.mutate s ws h1

/-! ## The source: `byteview.go` -/

/-- The source's `type ByteView struct { b []byte }`. -/
structure ByteView where
  b : Slice
deriving DecidableEq

/-- The zero value `ByteView{}`: the payload is the nil slice. -/
def ByteView.zero : ByteView := ⟨Slice.nil⟩

/-- The source's `func cloneBytes(b []byte) []byte`:
`c := make([]byte, len(b)); copy(c, b); return c`. -/
def cloneBytes (b : Slice) (h : Heap) : Except Panic (Slice × Heap) :=
  match make (len b) h with
  | .error e => .error e
  | .ok (c, h1) =>
    match copy c b h1 with
    | .error e => .error e
    | .ok (_, h2) => .ok (c, h2)

/-- The source's `func (v ByteView) Len() int { return len(v.b) }`. -/
def ByteView.Len (v : ByteView) (h : Heap) : Except Panic (Int × Heap) :=
  .ok (len v.b, h)

/-- The source's `func (v ByteView) ByteSlice() []byte { return cloneBytes(v.b) }`. -/
def ByteView.ByteSlice (v : ByteView) (h : Heap) : Except Panic (Slice × Heap) :=
  cloneBytes v.b h

/-- The source's `func (v ByteView) String() string { return string(v.b) }`. -/
def ByteView.String (v : ByteView) (h : Heap) : Except Panic (GoString × Heap) :=
  stringOfBytes v.b h

/-- Two slices alias when their capacity windows `off .. off + cap - 1` share
a cell of the same backing array. -/
def Slice.aliases (s t : Slice) : Bool :=
  match s.ptr, t.ptr with
  | .array a, .array b =>
    decide (a = b) && decide (max s.off t.off < min (s.off + s.cap) (t.off + t.cap))
  | _, _ => false

/-- `h2` has the same arrays, of the same sizes, as `h1`, and the same bytes in
every array other than the one at `p`. -/
def Heap.agreeOff (p : Ptr) (h1 h2 : Heap) : Prop :=
  h2.length = h1.length ∧
    ∀ a, (h2[a]?).map List.length = (h1[a]?).map List.length ∧
      (p ≠ .array a → h2[a]? = h1[a]?)

/-- The slice that `make([]byte, n)` returns on a heap of `k` arrays. -/
def madeSlice (k n : Nat) : Slice :=
  if n = 0 then ⟨.zerobase, 0, 0, 0⟩ else ⟨.array k, 0, n, n⟩

/-- The arrays that `make([]byte, n)` adds to the heap: none for `n = 0`,
otherwise one zeroed array of `n` bytes. -/
def zeroedArrays (n : Nat) : Heap :=
  if n = 0 then [] else [List.replicate n 0]

/-- The arrays that `cloneBytes` adds to the heap for a source denoting the
bytes `d`: none for an empty source, otherwise one array holding `d`. -/
def clonedArrays (d : List Byte) : Heap :=
  if d.length = 0 then [] else [d]

/-- The heap after `n` successive calls `v.ByteSlice()`, the returned slices
being dropped. -/
def ByteView.repeatByteSlice (v : ByteView) : Nat → Heap → Except Panic Heap
  | 0, h => .ok h
  | n + 1, h =>
    match v.ByteSlice h with
    | .error e => .error e
    | .ok (_, h1) => ByteView.repeatByteSlice v n h1

/-- The three accessors of `ByteView`. -/
inductive Call where
  | len
  | byteSlice
  | string
deriving DecidableEq

/-- What a caller observes of an accessor call: the integer, the bytes of the
returned slice, or the returned string. -/
inductive Result where
  | int (n : Int)
  | bytes (bs : List Byte)
  | str (s : GoString)
deriving DecidableEq

/-- One accessor call on `v`: its observable result and the heap it leaves. -/
def ByteView.call (v : ByteView) : Call → Heap → Except Panic (Result × Heap)
  | .len, h =>
    match v.Len h with
    | .error e => .error e
    | .ok (n, h1) => .ok (.int n, h1)
  | .byteSlice, h =>
    match v.ByteSlice h with
    | .error e => .error e
    | .ok (c, h1) => .ok (.bytes (c.contents h1), h1)
  | .string, h =>
    match v.String h with
    | .error e => .error e
    | .ok (s, h1) => .ok (.str s, h1)

/-- A sequence of accessor calls on `v`, in order: the list of observable
results and the final heap. -/
def ByteView.run (v : ByteView) : List Call → Heap → Except Panic (List Result × Heap)
  | [], h => .ok ([], h)
  | c :: cs, h =>
    match v.call c h with
    | .error e => .error e
    | .ok (r, h1) =>
      match ByteView.run v cs h1 with
      | .error e => .error e
      | .ok (rs, h2) => .ok (r :: rs, h2)

/-- What each accessor is expected to report for a view whose payload denotes
`v.b.contents h`: its length, its bytes, and the string of its bytes. -/
def ByteView.expected (v : ByteView) (h : Heap) : Call → Result
  | .len => .int ((v.b.contents h).length : Int)
  | .byteSlice => .bytes (v.b.contents h)
  | .string => .str ⟨v.b.contents h⟩

/-- What a caller sees from the single call `c` made on heap `h`, if the call
returns. -/
def ByteView.observe (v : ByteView) (h : Heap) (c : Call) : Option Result :=
  match v.call c h with
  | .ok (r, _) => some r
  | .error _ => none

/-- A heap with one five-byte array, used in the examples. -/
def exampleHeap : Heap := [[1, 2, 3, 4, 5]]

/-- The slice `arr[1:4]` of the array of `exampleHeap` (capacity 4). -/
def exampleSlice : Slice := ⟨.array 0, 1, 3, 4⟩

/-- The view whose payload is `exampleSlice`, holding the bytes 2, 3, 4. -/
def exampleView : ByteView := ⟨exampleSlice⟩

/-- A heap holding the bytes of "hello". -/
def helloHeap : Heap := [[104, 101, 108, 108, 111]]

/-- The view over the whole array of `helloHeap`. -/
def helloView : ByteView := ⟨⟨.array 0, 0, 5, 5⟩⟩

/-- Go `len(s)` of a string: its number of bytes. -/
def lenString (s : GoString) : Int := (s.bytes.length : Int)

/-- Go comparison `s == nil` of a slice: true exactly for a nil data pointer. -/
def Slice.isNil (s : Slice) : Bool :=
  match s.ptr with
  | .null => true
  | _ => false

/-- Go conversion `[]byte(s)` of a string: a slice of `len(s)` bytes is
allocated as by `make` and the bytes of `s` are copied into it, in order (the
capacity is taken to be the length); nothing is stored for the empty
string. -/
def bytesOfString (s : GoString) (h : Heap) : Except Panic (Slice × Heap) :=
  match make (lenString s) h with
  | .error e => .error e
  | .ok (c, h1) =>
    if s.bytes.length = 0 then .ok (c, h1)
    else
      match c.ptr with
      | .array a =>
        match h1.storeN a c.off s.bytes with
        | .error e => .error e
        | .ok h2 => .ok (c, h2)
      | _ => .error .nilDereference

/-- The view whose payload is the slice that `make([]byte, 0)` returns. -/
def emptyView : ByteView := ⟨⟨.zerobase, 0, 0, 0⟩⟩

/-- A heap whose only array holds bytes that are not valid UTF-8: a lone
continuation byte, the bytes 0xff and 0xfe, and a truncated two-byte
sequence. -/
def invalidHeap : Heap := [[128, 255, 254, 195]]

/-- The view over the whole array of `invalidHeap`. -/
def invalidView : ByteView := ⟨⟨.array 0, 0, 4, 4⟩⟩

/-! ## Store lemmas -/

theorem Heap.loadN_eq (h : Heap) (a : Nat) (arr : List Byte) (ha : h[a]? = some arr) :
    ∀ (n i : Nat), i + n ≤ arr.length → h.loadN a i n = .ok ((arr.drop i).take n) := by
  intro n
  induction n with
  | zero => intro i _; simp [Heap.loadN]
  | succ n ih =>
    intro i hi
    have hlt : i < arr.length := by omega
    have hload : h.load a i = .ok arr[i] := by
      simp [Heap.load, ha, List.getElem?_eq_getElem hlt]
    have hrest := ih (i + 1) (by omega)
    rw [Heap.loadN, hload]
    simp only [hrest]
    rw [List.drop_eq_getElem_cons hlt, List.take_succ_cons]

theorem Heap.storeN_eq : ∀ (xs : List Byte) (h : Heap) (a i : Nat) (arr : List Byte),
    h[a]? = some arr → i + xs.length ≤ arr.length →
    h.storeN a i xs = .ok (h.set a (arr.take i ++ xs ++ arr.drop (i + xs.length))) := by
  intro xs
  induction xs with
  | nil =>
    intro h a i arr ha _
    have : h.set a arr = h := by
      apply List.ext_getElem?
      intro k
      by_cases hk : a = k
      · subst hk
        rw [List.getElem?_set_self', ha]
        rfl
      · rw [List.getElem?_set_ne hk]
    simp [Heap.storeN, this]
  | cons x xs ih =>
    intro h a i arr ha hi
    simp only [List.length_cons] at hi
    have hlt : i < arr.length := by omega
    have halt : a < h.length := by
      rcases Nat.lt_or_ge a h.length with hlt2 | hge
      · exact hlt2
      · rw [List.getElem?_eq_none hge] at ha; cases ha
    have hstore : h.store a i x = .ok (h.set a (arr.set i x)) := by
      simp [Heap.store, ha, hlt]
    have ha1 : (h.set a (arr.set i x))[a]? = some (arr.set i x) := by
      exact List.getElem?_set_self halt
    have hrest := ih (h.set a (arr.set i x)) a (i + 1) (arr.set i x) ha1
      (by simp only [List.length_set]; omega)
    rw [Heap.storeN, hstore]
    simp only [hrest, List.set_set]
    congr 2
    have h1 : (arr.set i x).take (i + 1) = arr.take i ++ [x] := by
      rw [List.take_succ, List.set_take,
        List.set_eq_of_length_le (by simp : (arr.take i).length ≤ i),
        List.getElem?_set_self hlt]
      rfl
    have h2 : (arr.set i x).drop (i + 1 + xs.length) = arr.drop (i + (xs.length + 1)) := by
      rw [List.drop_set_of_lt x arr (by omega : i < i + 1 + xs.length)]
      congr 1; omega
    rw [h1, h2]
    simp

theorem Slice.wf_iff (h : Heap) (s : Slice) :
    s.wf h = true ↔ s.len ≤ s.cap ∧
      (((s.ptr = .null ∨ s.ptr = .zerobase) ∧ s.cap = 0) ∨
        ∃ a arr, s.ptr = .array a ∧ h[a]? = some arr ∧ s.off + s.cap ≤ arr.length) := by
  unfold Slice.wf
  cases hp : s.ptr with
  | null => simp
  | zerobase => simp
  | array a =>
    cases ha : h[a]? with
    | none => simp [ha]
    | some arr => simp [ha]

theorem Slice.contents_length (h : Heap) (s : Slice) (hwf : s.wf h = true) :
    (s.contents h).length = s.len := by
  rcases (Slice.wf_iff h s).1 hwf with ⟨hle, ⟨hp | hp, hc⟩ | ⟨a, arr, hp, ha, hb⟩⟩
  · simp [Slice.contents, hp]; omega
  · simp [Slice.contents, hp]; omega
  · simp [Slice.contents, hp, ha]; omega

theorem Slice.contents_of_len_zero (h : Heap) (s : Slice) (hz : s.len = 0) :
    s.contents h = [] := by
  unfold Slice.contents
  cases s.ptr <;> simp [hz]

theorem madeSlice_len (k n : Nat) : (madeSlice k n).len = n := by
  unfold madeSlice
  split
  · next hz => simp [hz]
  · rfl

theorem madeSlice_ptr {k n a : Nat} (hp : (madeSlice k n).ptr = .array a) :
    a = k ∧ n ≠ 0 := by
  unfold madeSlice at hp
  split at hp
  · simp at hp
  · next hz =>
    simp only [Ptr.array.injEq] at hp
    exact ⟨hp.symm, hz⟩

theorem make_len_eq (b : Slice) (h : Heap) :
    make (len b) h = .ok (madeSlice h.length b.len, h ++ zeroedArrays b.len) := by
  by_cases hz : b.len = 0
  · simp [make, len, madeSlice, zeroedArrays, hz]
  · simp [make, len, madeSlice, zeroedArrays, hz]

/-- The `copy(c, b)` step of `cloneBytes`, run on the slice and heap that
`make([]byte, len(b))` produced: it fills exactly the new array, if any. -/
theorem copy_into_made (b : Slice) (h : Heap) (hwf : b.wf h = true) :
    copy (madeSlice h.length b.len) b (h ++ zeroedArrays b.len) =
      .ok ((b.len : Int), h ++ clonedArrays (b.contents h)) := by
  by_cases hz : b.len = 0
  · simp [copy, madeSlice, zeroedArrays, clonedArrays, hz, Slice.contents_of_len_zero h b hz]
  · rcases (Slice.wf_iff h b).1 hwf with ⟨hle, ⟨hp, hc⟩ | ⟨a, arr, hp, ha, hb⟩⟩
    · omega
    · have halt : a < h.length := by
        rcases Nat.lt_or_ge a h.length with hlt | hge
        · exact hlt
        · rw [List.getElem?_eq_none hge] at ha; cases ha
      have ha1 : (h ++ [List.replicate b.len (0 : Byte)])[a]? = some arr := by
        rw [List.getElem?_append_left halt]; exact ha
      have hd1 : (h ++ [List.replicate b.len (0 : Byte)])[h.length]? =
          some (List.replicate b.len 0) := by
        rw [List.getElem?_append_right (Nat.le_refl _)]; simp
      have hload := Heap.loadN_eq _ a arr ha1 b.len b.off (by omega)
      have hlen : ((arr.drop b.off).take b.len).length = b.len := by
        simp; omega
      have hstore := Heap.storeN_eq ((arr.drop b.off).take b.len) _ h.length 0 _ hd1
        (by simp)
      have hcont : b.contents h = (arr.drop b.off).take b.len := by
        simp [Slice.contents, hp, ha]
      have hcl : clonedArrays ((arr.drop b.off).take b.len) =
          [(arr.drop b.off).take b.len] := by
        simp only [clonedArrays, hlen, hz, if_false]
      simp only [copy, madeSlice, zeroedArrays, Nat.min_self, hz, if_false, hp, hload,
        hstore, hcont, hcl]
      rw [hlen]
      simp

/-- What `cloneBytes` computes on a valid slice: the slice `make` returned,
and the heap extended by one array holding the bytes of `b` (by nothing when
`b` is empty). -/
theorem cloneBytes_eq (b : Slice) (h : Heap) (hwf : b.wf h = true) :
    cloneBytes b h =
      .ok (madeSlice h.length b.len, h ++ clonedArrays (b.contents h)) := by
  rw [cloneBytes, make_len_eq]
  simp only [copy_into_made b h hwf]

/-- What `string(b)` computes on a valid slice. -/
theorem stringOfBytes_eq (b : Slice) (h : Heap) (hwf : b.wf h = true) :
    stringOfBytes b h = .ok (⟨b.contents h⟩, h) := by
  unfold stringOfBytes
  by_cases hz : b.len = 0
  · simp [hz, Slice.contents_of_len_zero h b hz]
  · rcases (Slice.wf_iff h b).1 hwf with ⟨hle, ⟨hp, hc⟩ | ⟨a, arr, hp, ha, hb⟩⟩
    · omega
    · have hload := Heap.loadN_eq h a arr ha b.len b.off (by omega)
      simp [hz, hp, hload, Slice.contents, ha]

theorem Heap.lt_length_of_getElem? {h : Heap} {a : Nat} {arr : List Byte}
    (ha : h[a]? = some arr) : a < h.length := by
  rcases Nat.lt_or_ge a h.length with hlt | hge
  · exact hlt
  · rw [List.getElem?_eq_none hge] at ha; cases ha

theorem Slice.wf_append (h t : Heap) (s : Slice) (hwf : s.wf h = true) :
    s.wf (h ++ t) = true := by
  rw [Slice.wf_iff] at hwf ⊢
  rcases hwf with ⟨hle, ⟨hp, hc⟩ | ⟨a, arr, hp, ha, hb⟩⟩
  · exact ⟨hle, Or.inl ⟨hp, hc⟩⟩
  · refine ⟨hle, Or.inr ⟨a, arr, hp, ?_, hb⟩⟩
    rw [List.getElem?_append_left (Heap.lt_length_of_getElem? ha)]; exact ha

theorem Slice.contents_append (h t : Heap) (s : Slice) (hwf : s.wf h = true) :
    s.contents (h ++ t) = s.contents h := by
  rcases (Slice.wf_iff h s).1 hwf with ⟨hle, ⟨hp | hp, hc⟩ | ⟨a, arr, hp, ha, hb⟩⟩
  · simp [Slice.contents, hp]
  · simp [Slice.contents, hp]
  · have ha1 : (h ++ t)[a]? = some arr := by
      rw [List.getElem?_append_left (Heap.lt_length_of_getElem? ha)]; exact ha
    simp [Slice.contents, hp, ha, ha1]

theorem Slice.contents_made (h : Heap) (d : List Byte) :
    (madeSlice h.length d.length).contents (h ++ clonedArrays d) = d := by
  by_cases hz : d.length = 0
  · have hd : d = [] := List.length_eq_zero.1 hz
    subst hd
    simp [madeSlice, Slice.contents]
  · simp [madeSlice, clonedArrays, hz, Slice.contents]

theorem Slice.wf_made (h : Heap) (d : List Byte) :
    (madeSlice h.length d.length).wf (h ++ clonedArrays d) = true := by
  rw [Slice.wf_iff]
  by_cases hz : d.length = 0
  · simp [madeSlice, hz]
  · refine ⟨?_, Or.inr ⟨h.length, d, ?_, ?_, ?_⟩⟩
    · simp [madeSlice, hz]
    · simp [madeSlice, hz]
    · simp [clonedArrays, hz]
    · simp [madeSlice, hz]

theorem Heap.agreeOff_refl (p : Ptr) (h : Heap) : Heap.agreeOff p h h :=
  ⟨rfl, fun _ => ⟨rfl, fun _ => rfl⟩⟩

theorem Heap.agreeOff_trans {p : Ptr} {h1 h2 h3 : Heap}
    (h12 : Heap.agreeOff p h1 h2) (h23 : Heap.agreeOff p h2 h3) : Heap.agreeOff p h1 h3 :=
  ⟨h23.1.trans h12.1, fun a =>
    ⟨((h23.2 a).1).trans ((h12.2 a).1), fun hne => ((h23.2 a).2 hne).trans ((h12.2 a).2 hne)⟩⟩

theorem Heap.store_agreeOff {h h1 : Heap} {a i : Nat} {x : Byte}
    (hs : h.store a i x = .ok h1) : Heap.agreeOff (.array a) h h1 := by
  unfold Heap.store at hs
  cases ha : h[a]? with
  | none => simp [ha] at hs
  | some arr =>
    simp only [ha] at hs
    split at hs
    · cases hs
      refine ⟨by simp, fun k => ⟨?_, fun hne => ?_⟩⟩
      · by_cases hk : a = k
        · subst hk
          rw [List.getElem?_set_self (Heap.lt_length_of_getElem? ha), ha]
          simp
        · rw [List.getElem?_set_ne hk]
      · have hk : a ≠ k := fun e => hne (by rw [e])
        rw [List.getElem?_set_ne hk]
    · cases hs

theorem Slice.setIndex_agreeOff {s : Slice} {i : Nat} {x : Byte} {h h1 : Heap}
    (hs : s.setIndex i x h = .ok h1) : Heap.agreeOff s.ptr h h1 := by
  unfold Slice.setIndex at hs
  split at hs
  · cases hp : s.ptr with
    | null => simp [hp] at hs
    | zerobase => simp [hp] at hs
    | array a =>
      simp only [hp] at hs
      exact Heap.store_agreeOff hs
  · cases hs

theorem Slice.mutate_agreeOff (s : Slice) : ∀ (ws : List (Nat × Byte)) (h h1 : Heap),
    s.mutate ws h = .ok h1 → Heap.agreeOff s.ptr h h1 := by
  intro ws
  induction ws with
  | nil =>
    intro h h1 hm
    simp only [Slice.mutate, Except.ok.injEq] at hm
    subst hm
    exact Heap.agreeOff_refl _ _
  | cons w ws ih =>
    intro h h1 hm
    obtain ⟨i, x⟩ := w
    simp only [Slice.mutate] at hm
    cases hs : s.setIndex i x h with
    | error e => simp [hs] at hm
    | ok h2 =>
      simp only [hs] at hm
      exact Heap.agreeOff_trans (Slice.setIndex_agreeOff hs) (ih h2 h1 hm)

theorem Slice.wf_agreeOff {p : Ptr} {h1 h2 : Heap} (hag : Heap.agreeOff p h1 h2)
    (s : Slice) (hwf : s.wf h1 = true) : s.wf h2 = true := by
  rw [Slice.wf_iff] at hwf ⊢
  rcases hwf with ⟨hle, ⟨hp, hc⟩ | ⟨a, arr, hp, ha, hb⟩⟩
  · exact ⟨hle, Or.inl ⟨hp, hc⟩⟩
  · have hl := (hag.2 a).1
    rw [ha] at hl
    cases ha2 : h2[a]? with
    | none => simp [ha2] at hl
    | some arr2 =>
      simp only [ha2, Option.map_some', Option.some.injEq] at hl
      exact ⟨hle, Or.inr ⟨a, arr2, hp, ha2, by omega⟩⟩

theorem Slice.contents_agreeOff {p : Ptr} {h1 h2 : Heap} (hag : Heap.agreeOff p h1 h2)
    (s : Slice) (hne : ∀ a, s.ptr = .array a → p ≠ .array a) :
    s.contents h2 = s.contents h1 := by
  unfold Slice.contents
  cases hp : s.ptr with
  | null => rfl
  | zerobase => rfl
  | array a =>
    have := (hag.2 a).2 (hne a hp)
    simp [this]

theorem Slice.contents_clone (b : Slice) (h : Heap) (hwf : b.wf h = true) :
    (madeSlice h.length b.len).contents (h ++ clonedArrays (b.contents h)) =
      b.contents h := by
  have := Slice.contents_made h (b.contents h)
  rw [Slice.contents_length h b hwf] at this
  exact this

theorem Slice.wf_clone (b : Slice) (h : Heap) (hwf : b.wf h = true) :
    (madeSlice h.length b.len).wf (h ++ clonedArrays (b.contents h)) = true := by
  have := Slice.wf_made h (b.contents h)
  rw [Slice.contents_length h b hwf] at this
  exact this

/-- A slice valid in `h` does not point to an array allocated later. -/
theorem Slice.ptr_old_of_wf (h : Heap) (s : Slice) (hwf : s.wf h = true) (k : Nat)
    (hk : h.length ≤ k) : s.ptr ≠ .array k := by
  rcases (Slice.wf_iff h s).1 hwf with ⟨_, ⟨hp | hp, _⟩ | ⟨a, arr, hp, ha, _⟩⟩
  · rw [hp]; simp
  · rw [hp]; simp
  · rw [hp]
    intro e
    have := Heap.lt_length_of_getElem? ha
    simp only [Ptr.array.injEq] at e
    omega

/-- A slice valid in `h` and a slice made afterwards never point to the same
array. -/
theorem Slice.made_disjoint (h : Heap) (s : Slice) (hwf : s.wf h = true) (k n : Nat)
    (hk : h.length ≤ k) (a : Nat) :
    ¬ (s.ptr = .array a ∧ (madeSlice k n).ptr = .array a) := by
  rintro ⟨hs, hm⟩
  have := (madeSlice_ptr hm).1
  subst this
  exact Slice.ptr_old_of_wf h s hwf a hk hs

theorem Slice.aliases_eq_false (s t : Slice)
    (hd : ∀ a, ¬ (t.ptr = .array a ∧ s.ptr = .array a)) : s.aliases t = false := by
  unfold Slice.aliases
  cases hs : s.ptr with
  | null => rfl
  | zerobase => rfl
  | array a =>
    cases ht : t.ptr with
    | null => rfl
    | zerobase => rfl
    | array b =>
      have hab : ¬ a = b := fun e => hd a ⟨by rw [ht, e], hs⟩
      simp [hab]

theorem ByteView.repeatByteSlice_eq (v : ByteView) : ∀ (n : Nat) (h : Heap),
    v.b.wf h = true → ∃ t, v.repeatByteSlice n h = .ok (h ++ t) := by
  intro n
  induction n with
  | zero => intro h _; exact ⟨[], by simp [ByteView.repeatByteSlice]⟩
  | succ n ih =>
    intro h hwf
    obtain ⟨t, ht⟩ := ih (h ++ clonedArrays (v.b.contents h)) (Slice.wf_append h _ v.b hwf)
    refine ⟨clonedArrays (v.b.contents h) ++ t, ?_⟩
    simp only [ByteView.repeatByteSlice, ByteView.ByteSlice, cloneBytes_eq v.b h hwf, ht]
    simp

/-- Every accessor call on a valid view returns the expected observation and
only appends to the heap. -/
theorem ByteView.call_eq (v : ByteView) (h : Heap) (hwf : v.b.wf h = true) (c : Call) :
    ∃ t, v.call c h = .ok (v.expected h c, h ++ t) := by
  cases c with
  | len =>
    refine ⟨[], ?_⟩
    simp [ByteView.call, ByteView.Len, ByteView.expected, len,
      Slice.contents_length h v.b hwf]
  | byteSlice =>
    refine ⟨clonedArrays (v.b.contents h), ?_⟩
    simp [ByteView.call, ByteView.ByteSlice, ByteView.expected, cloneBytes_eq v.b h hwf,
      Slice.contents_clone v.b h hwf]
  | string =>
    refine ⟨[], ?_⟩
    simp [ByteView.call, ByteView.String, ByteView.expected, stringOfBytes_eq v.b h hwf]

theorem ByteView.expected_congr (v : ByteView) (h1 h2 : Heap)
    (hc : v.b.contents h2 = v.b.contents h1) (c : Call) :
    v.expected h2 c = v.expected h1 c := by
  cases c <;> simp [ByteView.expected, hc]

theorem ByteView.run_eq (v : ByteView) : ∀ (calls : List Call) (h : Heap),
    v.b.wf h = true → ∃ t, v.run calls h = .ok (calls.map (v.expected h), h ++ t) := by
  intro calls
  induction calls with
  | nil => intro h _; exact ⟨[], by simp [ByteView.run]⟩
  | cons c cs ih =>
    intro h hwf
    obtain ⟨t1, h1⟩ := ByteView.call_eq v h hwf c
    obtain ⟨t2, h2⟩ := ih (h ++ t1) (Slice.wf_append h t1 v.b hwf)
    have hexp : List.map (v.expected (h ++ t1)) cs = List.map (v.expected h) cs := by
      apply List.map_congr_left
      intro c _
      exact ByteView.expected_congr v h (h ++ t1) (Slice.contents_append h t1 v.b hwf) c
    refine ⟨t1 ++ t2, ?_⟩
    simp only [ByteView.run, h1, h2, hexp]
    simp

theorem ByteView.observe_eq (v : ByteView) (h : Heap) (hwf : v.b.wf h = true) (c : Call) :
    v.observe h c = some (v.expected h c) := by
  obtain ⟨t, ht⟩ := ByteView.call_eq v h hwf c
  simp [ByteView.observe, ht]

theorem Heap.agreeOff_append_one (h : Heap) (d1 d2 : List Byte)
    (hl : d2.length = d1.length) :
    Heap.agreeOff (.array h.length) (h ++ [d1]) (h ++ [d2]) := by
  refine ⟨by simp, fun a => ?_⟩
  rcases Nat.lt_trichotomy a h.length with hlt | heq | hgt
  · simp [List.getElem?_append_left hlt]
  · subst heq
    simp [hl]
  · have hne : ¬ h.length = a := by omega
    rw [List.getElem?_eq_none (by simp; omega), List.getElem?_eq_none (by simp; omega)]
    simp

/-- The heap `make` leaves and the heap `copy` leaves after it differ at most
in the bytes of the array `make` allocated. -/
theorem Heap.agreeOff_made (h : Heap) (n : Nat) (d : List Byte) (hl : d.length = n) :
    Heap.agreeOff (madeSlice h.length n).ptr (h ++ zeroedArrays n) (h ++ clonedArrays d) := by
  subst hl
  by_cases hz : d.length = 0
  · simp only [zeroedArrays, clonedArrays, hz, if_true]
    exact Heap.agreeOff_refl _ _
  · simp only [madeSlice, zeroedArrays, clonedArrays, hz, if_false]
    exact Heap.agreeOff_append_one h _ _ (by simp)

/-! ## Claims -/

/-- C1: on a valid payload, after any number `n` of earlier calls, a call to
`v.ByteSlice()` succeeds and returns a slice of the same length as the payload
whose bytes are exactly the bytes of the payload. -/
theorem byteSlice_equals_payload (v : ByteView) (h : Heap) (n : Nat)
    (hwf : v.b.wf h = true) :
    ∃ hn c h1, v.repeatByteSlice n h = .ok hn ∧ v.ByteSlice hn = .ok (c, h1) ∧
      len c = len v.b ∧ (c.contents h1).length = (v.b.contents h).length ∧
      c.contents h1 = v.b.contents h := by
  obtain ⟨t, ht⟩ := ByteView.repeatByteSlice_eq v n h hwf
  have hwfn := Slice.wf_append h t v.b hwf
  have hcn := Slice.contents_append h t v.b hwf
  have hcc := Slice.contents_clone v.b (h ++ t) hwfn
  refine ⟨h ++ t, _, _, ht, cloneBytes_eq v.b (h ++ t) hwfn, ?_, ?_, ?_⟩
  · simp [len, madeSlice_len]
  · rw [hcc, hcn]
  · rw [hcc, hcn]

theorem byteSlice_equals_payload_witness :
    ∃ hn c h1, exampleView.repeatByteSlice 2 exampleHeap = .ok hn ∧
      exampleView.ByteSlice hn = .ok (c, h1) ∧
      len c = len exampleView.b ∧
      (c.contents h1).length = (exampleView.b.contents exampleHeap).length ∧
      c.contents h1 = exampleView.b.contents exampleHeap :=
  byteSlice_equals_payload exampleView exampleHeap 2 (by decide)

/-- C2: the slice returned by `v.ByteSlice()` does not alias the payload.
After any sequence of writes `c[i] = x` through the returned slice `c`, the
payload holds the same bytes, a further `v.ByteSlice()` returns the same slice
header with the same bytes, and `v.String()` returns the same string, as
without the writes. -/
theorem byteSlice_result_mutation_independent (v : ByteView) (h h1 h2 : Heap) (c : Slice)
    (ws : List (Nat × Byte)) (hwf : v.b.wf h = true)
    (hcall : v.ByteSlice h = .ok (c, h1)) (hmut : c.mutate ws h1 = .ok h2) :
    c.aliases v.b = false ∧ v.b.contents h2 = v.b.contents h1 ∧
    (∃ c1 k1 k2, v.ByteSlice h1 = .ok (c1, k1) ∧ v.ByteSlice h2 = .ok (c1, k2) ∧
      c1.contents k2 = c1.contents k1) ∧
    (∃ s, v.String h1 = .ok (s, h1) ∧ v.String h2 = .ok (s, h2)) := by
  rw [ByteView.ByteSlice, cloneBytes_eq v.b h hwf] at hcall
  simp only [Except.ok.injEq, Prod.mk.injEq] at hcall
  obtain ⟨hc, hh1⟩ := hcall
  subst hc hh1
  have hag := Slice.mutate_agreeOff _ ws _ _ hmut
  have hdis := Slice.made_disjoint h v.b hwf h.length v.b.len (Nat.le_refl _)
  have hwf1 := Slice.wf_append h (clonedArrays (v.b.contents h)) v.b hwf
  have hwf2 := Slice.wf_agreeOff hag v.b hwf1
  have hc2 := Slice.contents_agreeOff hag v.b (fun a ha e => hdis a ⟨ha, e⟩)
  refine ⟨Slice.aliases_eq_false _ _ hdis, hc2, ?_, ?_⟩
  · refine ⟨madeSlice (h ++ clonedArrays (v.b.contents h)).length v.b.len,
      (h ++ clonedArrays (v.b.contents h)) ++
        clonedArrays (v.b.contents (h ++ clonedArrays (v.b.contents h))),
      h2 ++ clonedArrays (v.b.contents h2), cloneBytes_eq v.b _ hwf1, ?_, ?_⟩
    · rw [ByteView.ByteSlice, cloneBytes_eq v.b h2 hwf2, hag.1]
    · have e2 := Slice.contents_clone v.b h2 hwf2
      rw [hag.1] at e2
      rw [e2, Slice.contents_clone v.b _ hwf1, hc2]
  · refine ⟨⟨v.b.contents (h ++ clonedArrays (v.b.contents h))⟩,
      stringOfBytes_eq v.b _ hwf1, ?_⟩
    rw [ByteView.String, stringOfBytes_eq v.b h2 hwf2, hc2]

theorem byteSlice_result_mutation_independent_witness :
    (⟨.array 1, 0, 3, 3⟩ : Slice).aliases exampleView.b = false ∧
    exampleView.b.contents [[1, 2, 3, 4, 5], [9, 3, 7]] =
      exampleView.b.contents [[1, 2, 3, 4, 5], [2, 3, 4]] ∧
    (∃ c1 k1 k2, exampleView.ByteSlice [[1, 2, 3, 4, 5], [2, 3, 4]] = .ok (c1, k1) ∧
      exampleView.ByteSlice [[1, 2, 3, 4, 5], [9, 3, 7]] = .ok (c1, k2) ∧
      c1.contents k2 = c1.contents k1) ∧
    (∃ s, exampleView.String [[1, 2, 3, 4, 5], [2, 3, 4]] =
        .ok (s, [[1, 2, 3, 4, 5], [2, 3, 4]]) ∧
      exampleView.String [[1, 2, 3, 4, 5], [9, 3, 7]] =
        .ok (s, [[1, 2, 3, 4, 5], [9, 3, 7]])) :=
  byteSlice_result_mutation_independent exampleView exampleHeap
    [[1, 2, 3, 4, 5], [2, 3, 4]] [[1, 2, 3, 4, 5], [9, 3, 7]] ⟨.array 1, 0, 3, 3⟩
    [(0, 9), (2, 7)] (by decide) rfl rfl

/-- C3: for the view whose (valid) payload denotes the byte sequence `S`,
`v.Len()` returns the number of bytes of `S` and leaves the heap as it was. -/
theorem len_eq_length (v : ByteView) (h : Heap) (S : List Byte)
    (hwf : v.b.wf h = true) (hS : v.b.contents h = S) :
    v.Len h = .ok ((S.length : Int), h) := by
  rw [← hS, Slice.contents_length h v.b hwf]
  rfl

theorem len_eq_length_witness :
    exampleView.Len exampleHeap = .ok ((([2, 3, 4] : List Byte).length : Int), exampleHeap) :=
  len_eq_length exampleView exampleHeap [2, 3, 4] (by decide) (by decide)

/-- C4: for every Go string `s`, the view whose (valid) payload denotes the
bytes of `s` returns exactly `s` from `String()`; the bytes of "hello" give
"hello". -/
theorem string_round_trip (v : ByteView) (h : Heap) (s : GoString)
    (hwf : v.b.wf h = true) (hs : v.b.contents h = s.bytes) :
    v.String h = .ok (s, h) := by
  rw [ByteView.String, stringOfBytes_eq v.b h hwf, hs]

theorem string_round_trip_witness :
    helloView.String helloHeap = .ok (GoString.ofText "hello", helloHeap) :=
  string_round_trip helloView helloHeap (GoString.ofText "hello") (by decide) (by decide)

/-- C5, as stated, fails: the source has no constructor, a view is built as
`ByteView{b: buf}` and shares the storage of `buf`.  After `buf[0] = 9` the
view over `exampleSlice` returns different bytes and a different string. -/
theorem construction_shares_buffer_counterexample :
    exampleSlice.wf exampleHeap = true ∧
    exampleSlice.mutate [(0, 9)] exampleHeap = .ok [[1, 9, 3, 4, 5]] ∧
    (ByteView.mk exampleSlice).observe exampleHeap .string = some (.str ⟨[2, 3, 4]⟩) ∧
    (ByteView.mk exampleSlice).observe [[1, 9, 3, 4, 5]] .string = some (.str ⟨[9, 3, 4]⟩) ∧
    (ByteView.mk exampleSlice).observe exampleHeap .byteSlice = some (.bytes [2, 3, 4]) ∧
    (ByteView.mk exampleSlice).observe [[1, 9, 3, 4, 5]] .byteSlice = some (.bytes [9, 3, 4]) ∧
    (ByteView.mk exampleSlice).observe [[1, 9, 3, 4, 5]] .string ≠
      (ByteView.mk exampleSlice).observe exampleHeap .string ∧
    (ByteView.mk exampleSlice).observe [[1, 9, 3, 4, 5]] .byteSlice ≠
      (ByteView.mk exampleSlice).observe exampleHeap .byteSlice := by
  refine ⟨by decide, rfl, by decide, by decide, by decide, by decide, by decide, by decide⟩

/-- C5 (amended): a view built as `ByteView{b: buf}` keeps its `Len()` under
writes to `buf`; and when the payload `p` is a copy made by `cloneBytes(buf)`,
it does not alias `buf`, and after any sequence of writes `buf[i] = x` every
accessor of the view over `p` returns what it returned before the writes. -/
theorem construction_copy_independent (buf p : Slice) (h h1 h2 : Heap)
    (ws : List (Nat × Byte)) (c : Call) (hwf : buf.wf h = true)
    (hclone : cloneBytes buf h = .ok (p, h1)) (hmut : buf.mutate ws h1 = .ok h2) :
    (ByteView.mk buf).observe h2 .len = (ByteView.mk buf).observe h1 .len ∧
    p.aliases buf = false ∧
    ((ByteView.mk p).observe h1 c).isSome = true ∧
    (ByteView.mk p).observe h2 c = (ByteView.mk p).observe h1 c := by
  rw [cloneBytes_eq buf h hwf] at hclone
  simp only [Except.ok.injEq, Prod.mk.injEq] at hclone
  obtain ⟨hp, hh1⟩ := hclone
  subst hp hh1
  have hag := Slice.mutate_agreeOff _ ws _ _ hmut
  have hdis := Slice.made_disjoint h buf hwf h.length buf.len (Nat.le_refl _)
  have hpwf1 := Slice.wf_clone buf h hwf
  have hpwf2 := Slice.wf_agreeOff hag _ hpwf1
  have hpc := Slice.contents_agreeOff hag (madeSlice h.length buf.len)
    (fun a ha e => hdis a ⟨e, ha⟩)
  refine ⟨rfl, Slice.aliases_eq_false _ _ hdis, ?_, ?_⟩
  · rw [ByteView.observe_eq ⟨madeSlice h.length buf.len⟩ _ hpwf1 c]; rfl
  · rw [ByteView.observe_eq ⟨madeSlice h.length buf.len⟩ _ hpwf1 c,
      ByteView.observe_eq ⟨madeSlice h.length buf.len⟩ _ hpwf2 c]
    exact congrArg some (ByteView.expected_congr ⟨madeSlice h.length buf.len⟩ _ _ hpc c)

theorem construction_copy_independent_witness :
    ((ByteView.mk exampleSlice).observe [[1, 9, 3, 7, 5], [2, 3, 4]] .len =
        (ByteView.mk exampleSlice).observe [[1, 2, 3, 4, 5], [2, 3, 4]] .len ∧
      (⟨.array 1, 0, 3, 3⟩ : Slice).aliases exampleSlice = false ∧
      ((ByteView.mk ⟨.array 1, 0, 3, 3⟩).observe [[1, 2, 3, 4, 5], [2, 3, 4]]
        .byteSlice).isSome = true ∧
      (ByteView.mk ⟨.array 1, 0, 3, 3⟩).observe [[1, 9, 3, 7, 5], [2, 3, 4]] .byteSlice =
        (ByteView.mk ⟨.array 1, 0, 3, 3⟩).observe [[1, 2, 3, 4, 5], [2, 3, 4]] .byteSlice) ∧
    ((ByteView.mk exampleSlice).observe [[1, 9, 3, 7, 5], [2, 3, 4]] .len =
        (ByteView.mk exampleSlice).observe [[1, 2, 3, 4, 5], [2, 3, 4]] .len ∧
      (⟨.array 1, 0, 3, 3⟩ : Slice).aliases exampleSlice = false ∧
      ((ByteView.mk ⟨.array 1, 0, 3, 3⟩).observe [[1, 2, 3, 4, 5], [2, 3, 4]]
        .string).isSome = true ∧
      (ByteView.mk ⟨.array 1, 0, 3, 3⟩).observe [[1, 9, 3, 7, 5], [2, 3, 4]] .string =
        (ByteView.mk ⟨.array 1, 0, 3, 3⟩).observe [[1, 2, 3, 4, 5], [2, 3, 4]] .string) :=
  ⟨construction_copy_independent exampleSlice ⟨.array 1, 0, 3, 3⟩ exampleHeap
      [[1, 2, 3, 4, 5], [2, 3, 4]] [[1, 9, 3, 7, 5], [2, 3, 4]] [(0, 9), (2, 7)]
      .byteSlice (by decide) rfl rfl,
    construction_copy_independent exampleSlice ⟨.array 1, 0, 3, 3⟩ exampleHeap
      [[1, 2, 3, 4, 5], [2, 3, 4]] [[1, 9, 3, 7, 5], [2, 3, 4]] [(0, 9), (2, 7)]
      .string (by decide) rfl rfl⟩

/-- C6: the accessors are pure.  Any sequence of calls to `Len`, `ByteSlice`
and `String` on a valid view returns; every array that existed before is left
as it was (the heap only grows), so the payload denotes the same bytes
afterwards; and each call of the sequence returns what the same call returns
when made first, on the initial heap. -/
theorem accessors_pure (v : ByteView) (h : Heap) (calls : List Call)
    (hwf : v.b.wf h = true) :
    ∃ rs h1, v.run calls h = .ok (rs, h1) ∧ h <+: h1 ∧ v.b.wf h1 = true ∧
      (v.b.contents h1).length = (v.b.contents h).length ∧
      v.b.contents h1 = v.b.contents h ∧
      rs.map some = calls.map (v.observe h) := by
  obtain ⟨t, ht⟩ := ByteView.run_eq v calls h hwf
  have hc := Slice.contents_append h t v.b hwf
  refine ⟨_, _, ht, ⟨t, rfl⟩, Slice.wf_append h t v.b hwf, by rw [hc], hc, ?_⟩
  rw [List.map_map]
  apply List.map_congr_left
  intro c _
  exact (ByteView.observe_eq v h hwf c).symm

theorem accessors_pure_witness :
    ∃ rs h1, exampleView.run [.byteSlice, .len, .string, .byteSlice, .string, .len]
        exampleHeap = .ok (rs, h1) ∧
      exampleHeap <+: h1 ∧ exampleView.b.wf h1 = true ∧
      (exampleView.b.contents h1).length = (exampleView.b.contents exampleHeap).length ∧
      exampleView.b.contents h1 = exampleView.b.contents exampleHeap ∧
      rs.map some = [Call.byteSlice, .len, .string, .byteSlice, .string, .len].map
        (exampleView.observe exampleHeap) :=
  accessors_pure exampleView exampleHeap [.byteSlice, .len, .string, .byteSlice, .string, .len]
    (by decide)

/-- C7: on every valid view, the zero value and empty payloads included,
`Len`, `ByteSlice` and `String` each return a value, never a panic.  `Len` and
`String` leave the heap as it is; `ByteSlice` returns a valid slice and only
appends an array to the heap; and inside `cloneBytes` the `copy` into the
slice that `make` returned succeeds with every store in bounds, changing no
array other than the one just allocated and no array size. -/
theorem accessors_total (v : ByteView) (h : Heap) (hwf : v.b.wf h = true) :
    (∃ n, v.Len h = .ok (n, h)) ∧
    (∃ c h1, v.ByteSlice h = .ok (c, h1) ∧ c.wf h1 = true ∧ h <+: h1) ∧
    (∃ s, v.String h = .ok (s, h)) ∧
    (∃ c h1 n h2, make (len v.b) h = .ok (c, h1) ∧ copy c v.b h1 = .ok (n, h2) ∧
      Heap.agreeOff c.ptr h1 h2 ∧ h <+: h2) := by
  refine ⟨⟨len v.b, rfl⟩, ?_, ⟨_, stringOfBytes_eq v.b h hwf⟩, ?_⟩
  · exact ⟨_, _, cloneBytes_eq v.b h hwf, Slice.wf_clone v.b h hwf, ⟨_, rfl⟩⟩
  · refine ⟨_, _, _, _, make_len_eq v.b h, copy_into_made v.b h hwf, ?_, ⟨_, rfl⟩⟩
    exact Heap.agreeOff_made h v.b.len _ (Slice.contents_length h v.b hwf)

theorem accessors_total_witness :
    ((∃ n, ByteView.zero.Len exampleHeap = .ok (n, exampleHeap)) ∧
      (∃ c h1, ByteView.zero.ByteSlice exampleHeap = .ok (c, h1) ∧ c.wf h1 = true ∧
        exampleHeap <+: h1) ∧
      (∃ s, ByteView.zero.String exampleHeap = .ok (s, exampleHeap)) ∧
      (∃ c h1 n h2, make (len ByteView.zero.b) exampleHeap = .ok (c, h1) ∧
        copy c ByteView.zero.b h1 = .ok (n, h2) ∧
        Heap.agreeOff c.ptr h1 h2 ∧ exampleHeap <+: h2)) ∧
    ((∃ n, exampleView.Len exampleHeap = .ok (n, exampleHeap)) ∧
      (∃ c h1, exampleView.ByteSlice exampleHeap = .ok (c, h1) ∧ c.wf h1 = true ∧
        exampleHeap <+: h1) ∧
      (∃ s, exampleView.String exampleHeap = .ok (s, exampleHeap)) ∧
      (∃ c h1 n h2, make (len exampleView.b) exampleHeap = .ok (c, h1) ∧
        copy c exampleView.b h1 = .ok (n, h2) ∧
        Heap.agreeOff c.ptr h1 h2 ∧ exampleHeap <+: h2)) :=
  ⟨accessors_total ByteView.zero exampleHeap (by decide),
    accessors_total exampleView exampleHeap (by decide)⟩

/-- C8, as stated, fails: `make([]byte, 0)` allocates nothing.  On the empty
payload that `make([]byte, 0)` itself returns, `ByteSlice()` leaves the heap
as it is and returns a slice header equal to the payload's, so the result is
not a freshly allocated slice different from the payload slice. -/
theorem empty_payload_not_fresh_counterexample :
    make 0 exampleHeap = .ok (emptyView.b, exampleHeap) ∧
    emptyView.b.wf exampleHeap = true ∧
    emptyView.b.contents exampleHeap = [] ∧
    emptyView.ByteSlice exampleHeap = .ok (⟨.zerobase, 0, 0, 0⟩, exampleHeap) ∧
    ¬ ∃ c h1, emptyView.ByteSlice exampleHeap = .ok (c, h1) ∧
      (c ≠ emptyView.b ∨ h1 ≠ exampleHeap) := by
  refine ⟨rfl, by decide, by decide, rfl, ?_⟩
  rintro ⟨c, h1, hcall, hne⟩
  have hr : emptyView.ByteSlice exampleHeap = .ok (emptyView.b, exampleHeap) := rfl
  rw [hr] at hcall
  simp only [Except.ok.injEq, Prod.mk.injEq] at hcall
  rcases hne with hne | hne
  · exact hne hcall.1.symm
  · exact hne hcall.2.symm

/-- C8 (amended): for a valid view whose payload is the empty byte sequence,
`Len()` returns 0 and `ByteSlice()` returns the slice that `make([]byte, 0)`
returns: not nil, of length 0 and capacity 0, without bytes, and sharing no
cell with the payload.  No array is allocated for it: the heap is unchanged. -/
theorem empty_payload_copy (v : ByteView) (h : Heap) (hwf : v.b.wf h = true)
    (hempty : v.b.contents h = []) :
    v.Len h = .ok (0, h) ∧
    ∃ c, v.ByteSlice h = .ok (c, h) ∧ make 0 h = .ok (c, h) ∧ len c = 0 ∧ c.cap = 0 ∧
      c.contents h = [] ∧ c.isNil = false ∧ c.aliases v.b = false := by
  have hz : v.b.len = 0 := by
    rw [← Slice.contents_length h v.b hwf, hempty]; rfl
  refine ⟨by simp [ByteView.Len, len, hz], ⟨.zerobase, 0, 0, 0⟩, ?_, rfl, rfl, rfl, rfl, rfl,
    Slice.aliases_eq_false _ _ (by simp)⟩
  rw [ByteView.ByteSlice, cloneBytes_eq v.b h hwf, hempty, hz]
  simp [madeSlice, clonedArrays]

theorem empty_payload_copy_witness :
    ((ByteView.mk ⟨.array 0, 2, 0, 3⟩).Len exampleHeap = .ok (0, exampleHeap) ∧
      ∃ c, (ByteView.mk ⟨.array 0, 2, 0, 3⟩).ByteSlice exampleHeap = .ok (c, exampleHeap) ∧
        make 0 exampleHeap = .ok (c, exampleHeap) ∧ len c = 0 ∧ c.cap = 0 ∧
        c.contents exampleHeap = [] ∧ c.isNil = false ∧
        c.aliases (ByteView.mk ⟨.array 0, 2, 0, 3⟩).b = false) ∧
    (emptyView.Len exampleHeap = .ok (0, exampleHeap) ∧
      ∃ c, emptyView.ByteSlice exampleHeap = .ok (c, exampleHeap) ∧
        make 0 exampleHeap = .ok (c, exampleHeap) ∧ len c = 0 ∧ c.cap = 0 ∧
        c.contents exampleHeap = [] ∧ c.isNil = false ∧
        c.aliases emptyView.b = false) :=
  ⟨empty_payload_copy ⟨⟨.array 0, 2, 0, 3⟩⟩ exampleHeap (by decide) (by decide),
    empty_payload_copy emptyView exampleHeap (by decide) (by decide)⟩

/-- C9: two slices returned by two calls to `v.ByteSlice()` share no cell, and
any sequence of writes through either one leaves the bytes of the other as
they were.  When the payload is not empty the two slices have different
backing arrays (for an empty payload both are the slice without cells that
`make([]byte, 0)` returns). -/
theorem byteSlice_copies_independent (v : ByteView) (h h1 h2 h3 h4 : Heap) (c1 c2 : Slice)
    (ws1 ws2 : List (Nat × Byte)) (hwf : v.b.wf h = true)
    (hcall1 : v.ByteSlice h = .ok (c1, h1)) (hcall2 : v.ByteSlice h1 = .ok (c2, h2))
    (hmut1 : c1.mutate ws1 h2 = .ok h3) (hmut2 : c2.mutate ws2 h2 = .ok h4) :
    c1.aliases c2 = false ∧ (v.b.len ≠ 0 → c1.ptr ≠ c2.ptr) ∧
    c2.contents h3 = c2.contents h2 ∧ c1.contents h4 = c1.contents h2 := by
  rw [ByteView.ByteSlice, cloneBytes_eq v.b h hwf] at hcall1
  simp only [Except.ok.injEq, Prod.mk.injEq] at hcall1
  obtain ⟨e1, e2⟩ := hcall1
  subst e1 e2
  rw [ByteView.ByteSlice, cloneBytes_eq v.b _ (Slice.wf_append h _ v.b hwf)] at hcall2
  simp only [Except.ok.injEq, Prod.mk.injEq] at hcall2
  obtain ⟨e1, e2⟩ := hcall2
  subst e1 e2
  have hag1 := Slice.mutate_agreeOff _ ws1 _ _ hmut1
  have hag2 := Slice.mutate_agreeOff _ ws2 _ _ hmut2
  have hdis := Slice.made_disjoint (h ++ clonedArrays (v.b.contents h))
    (madeSlice h.length v.b.len) (Slice.wf_clone v.b h hwf)
    (h ++ clonedArrays (v.b.contents h)).length v.b.len (Nat.le_refl _)
  refine ⟨Slice.aliases_eq_false _ _ (fun a hh => hdis a ⟨hh.2, hh.1⟩), ?_, ?_, ?_⟩
  · intro hn e
    have hp1 : (madeSlice h.length v.b.len).ptr = .array h.length := by
      simp [madeSlice, hn]
    exact hdis h.length ⟨hp1, by rw [← e, hp1]⟩
  · exact Slice.contents_agreeOff hag1 _ (fun a ha e => hdis a ⟨e, ha⟩)
  · exact Slice.contents_agreeOff hag2 _ (fun a ha e => hdis a ⟨ha, e⟩)

theorem byteSlice_copies_independent_witness :
    ((⟨.array 1, 0, 3, 3⟩ : Slice).aliases ⟨.array 2, 0, 3, 3⟩ = false ∧
      (exampleView.b.len ≠ 0 →
        (⟨.array 1, 0, 3, 3⟩ : Slice).ptr ≠ (⟨.array 2, 0, 3, 3⟩ : Slice).ptr) ∧
      (⟨.array 2, 0, 3, 3⟩ : Slice).contents [[1, 2, 3, 4, 5], [9, 3, 4], [2, 3, 4]] =
        (⟨.array 2, 0, 3, 3⟩ : Slice).contents [[1, 2, 3, 4, 5], [2, 3, 4], [2, 3, 4]] ∧
      (⟨.array 1, 0, 3, 3⟩ : Slice).contents [[1, 2, 3, 4, 5], [2, 3, 4], [2, 8, 7]] =
        (⟨.array 1, 0, 3, 3⟩ : Slice).contents [[1, 2, 3, 4, 5], [2, 3, 4], [2, 3, 4]]) ∧
    ((⟨.zerobase, 0, 0, 0⟩ : Slice).aliases ⟨.zerobase, 0, 0, 0⟩ = false ∧
      (emptyView.b.len ≠ 0 →
        (⟨.zerobase, 0, 0, 0⟩ : Slice).ptr ≠ (⟨.zerobase, 0, 0, 0⟩ : Slice).ptr) ∧
      (⟨.zerobase, 0, 0, 0⟩ : Slice).contents exampleHeap =
        (⟨.zerobase, 0, 0, 0⟩ : Slice).contents exampleHeap ∧
      (⟨.zerobase, 0, 0, 0⟩ : Slice).contents exampleHeap =
        (⟨.zerobase, 0, 0, 0⟩ : Slice).contents exampleHeap) :=
  ⟨byteSlice_copies_independent exampleView exampleHeap [[1, 2, 3, 4, 5], [2, 3, 4]]
      [[1, 2, 3, 4, 5], [2, 3, 4], [2, 3, 4]] [[1, 2, 3, 4, 5], [9, 3, 4], [2, 3, 4]]
      [[1, 2, 3, 4, 5], [2, 3, 4], [2, 8, 7]] ⟨.array 1, 0, 3, 3⟩ ⟨.array 2, 0, 3, 3⟩
      [(0, 9)] [(2, 7), (1, 8)] (by decide) rfl rfl rfl rfl,
    byteSlice_copies_independent emptyView exampleHeap exampleHeap exampleHeap exampleHeap
      exampleHeap ⟨.zerobase, 0, 0, 0⟩ ⟨.zerobase, 0, 0, 0⟩ [] [] (by decide) rfl rfl rfl rfl⟩

theorem bytesOfString_eq (s : GoString) (h : Heap) :
    bytesOfString s h =
      .ok (madeSlice h.length s.bytes.length, h ++ clonedArrays s.bytes) := by
  by_cases hz : s.bytes.length = 0
  · simp [bytesOfString, make, lenString, madeSlice, clonedArrays, hz]
  · have hmake : make (lenString s) h =
        .ok (⟨.array h.length, 0, s.bytes.length, s.bytes.length⟩,
          h ++ [List.replicate s.bytes.length 0]) := by
      simp [make, lenString, hz]
    have hd1 : (h ++ [List.replicate s.bytes.length (0 : Byte)])[h.length]? =
        some (List.replicate s.bytes.length 0) := by
      rw [List.getElem?_append_right (Nat.le_refl _)]; simp
    have hstore := Heap.storeN_eq s.bytes _ h.length 0 _ hd1 (by simp)
    rw [bytesOfString, hmake]
    simp only [hz, if_false, hstore, madeSlice, clonedArrays]
    simp

/-- C11: `String()` does not validate or alter the payload.  On every valid
view, whatever its bytes, `String()` returns the string whose bytes are the
payload bytes in order, and converting that string back with `[]byte(s)` gives
a slice with the same bytes as the one `ByteSlice()` returns. -/
theorem string_is_payload_bytes (v : ByteView) (h : Heap) (hwf : v.b.wf h = true) :
    ∃ s c1 k1 c2 k2, v.String h = .ok (s, h) ∧ s.bytes = v.b.contents h ∧
      bytesOfString s h = .ok (c1, k1) ∧ v.ByteSlice h = .ok (c2, k2) ∧
      c1.contents k1 = c2.contents k2 ∧ len c1 = len c2 := by
  refine ⟨⟨v.b.contents h⟩, _, _, _, _, stringOfBytes_eq v.b h hwf, rfl,
    bytesOfString_eq _ h, cloneBytes_eq v.b h hwf, ?_, ?_⟩
  · rw [Slice.contents_clone v.b h hwf]
    exact Slice.contents_made h (v.b.contents h)
  · simp [len, madeSlice_len, Slice.contents_length h v.b hwf]

theorem string_is_payload_bytes_witness :
    ∃ s c1 k1 c2 k2, invalidView.String invalidHeap = .ok (s, invalidHeap) ∧
      s.bytes = invalidView.b.contents invalidHeap ∧
      bytesOfString s invalidHeap = .ok (c1, k1) ∧
      invalidView.ByteSlice invalidHeap = .ok (c2, k2) ∧
      c1.contents k1 = c2.contents k2 ∧ len c1 = len c2 :=
  string_is_payload_bytes invalidView invalidHeap (by decide)

/-- C12: the three accessors agree on size.  On every valid view the length of
the slice returned by `ByteSlice()` and the length in bytes of the string
returned by `String()` both equal the value returned by `Len()`. -/
theorem accessors_agree_on_size (v : ByteView) (h : Heap) (hwf : v.b.wf h = true) :
    ∃ n c h1 s, v.Len h = .ok (n, h) ∧ v.ByteSlice h = .ok (c, h1) ∧
      v.String h = .ok (s, h) ∧ len c = n ∧ lenString s = n ∧
      ((c.contents h1).length : Int) = n := by
  refine ⟨len v.b, _, _, _, rfl, cloneBytes_eq v.b h hwf, stringOfBytes_eq v.b h hwf,
    ?_, ?_, ?_⟩
  · simp [len, madeSlice_len]
  · simp [lenString, len, Slice.contents_length h v.b hwf]
  · simp [len, Slice.contents_clone v.b h hwf, Slice.contents_length h v.b hwf]

theorem accessors_agree_on_size_witness :
    ∃ n c h1 s, exampleView.Len exampleHeap = .ok (n, exampleHeap) ∧
      exampleView.ByteSlice exampleHeap = .ok (c, h1) ∧
      exampleView.String exampleHeap = .ok (s, exampleHeap) ∧ len c = n ∧
      lenString s = n ∧ ((c.contents h1).length : Int) = n :=
  accessors_agree_on_size exampleView exampleHeap (by decide)

/-- C14: `cloneBytes` leaves its argument unchanged and is idempotent up to
content.  For every valid slice `b`, `c := cloneBytes(b)` returns, `b` denotes
the same bytes after the call as before, and `cloneBytes(c)` returns a slice
with the same bytes as `c` and as `b`, again leaving `c` and `b` as they
were. -/
theorem cloneBytes_idempotent (b : Slice) (h : Heap) (hwf : b.wf h = true) :
    ∃ c h1 d h2, cloneBytes b h = .ok (c, h1) ∧ b.contents h1 = b.contents h ∧
      cloneBytes c h1 = .ok (d, h2) ∧
      d.contents h2 = c.contents h1 ∧ d.contents h2 = b.contents h ∧
      c.contents h2 = c.contents h1 ∧ b.contents h2 = b.contents h := by
  have hwf1 := Slice.wf_append h (clonedArrays (b.contents h)) b hwf
  have hcwf := Slice.wf_clone b h hwf
  have hb1 := Slice.contents_append h (clonedArrays (b.contents h)) b hwf
  have hc1 := Slice.contents_clone b h hwf
  refine ⟨_, _, _, _, cloneBytes_eq b h hwf, hb1, cloneBytes_eq _ _ hcwf, ?_, ?_, ?_, ?_⟩
  · exact Slice.contents_clone _ _ hcwf
  · rw [Slice.contents_clone _ _ hcwf, hc1]
  · exact Slice.contents_append _ _ _ hcwf
  · rw [Slice.contents_append _ _ b hwf1, hb1]

theorem cloneBytes_idempotent_witness :
    ∃ c h1 d h2, cloneBytes exampleSlice exampleHeap = .ok (c, h1) ∧
      exampleSlice.contents h1 = exampleSlice.contents exampleHeap ∧
      cloneBytes c h1 = .ok (d, h2) ∧
      d.contents h2 = c.contents h1 ∧ d.contents h2 = exampleSlice.contents exampleHeap ∧
      c.contents h2 = c.contents h1 ∧
      exampleSlice.contents h2 = exampleSlice.contents exampleHeap :=
  cloneBytes_idempotent exampleSlice exampleHeap (by decide)

end simpchache
